import Mathlib

/-!
Verification of the `defy` templating macro (parser in `src/ast.rs`,
emitter in `src/lib.rs`) against its natural-language specification.

The embedding works over token trees: the external tokenizer hands the
translator a stream of token trees (identifiers, punctuation, literals and
delimited groups), and the emitter produces another such stream.  Source
expressions and patterns embedded in the AST are opaque captured token
runs, as the specification directs ("captured raw syntax + position"
values that are only re-emitted verbatim).  Source positions are opaque
`Nat` metadata carried on AST nodes; they matter only for the position of
the ordering-violation diagnostic.
-/

namespace Defy

/-- Opaque source position metadata (proc-macro spans). -/
abbrev Span := Nat

/-- Delimiters of a token group. -/
inductive Delim where
  | paren
  | brace
  | bracket
deriving DecidableEq, Repr

/-- A token tree: identifier (keywords included), punctuation (compound
operators such as `::`, `=>`, `..` arrive pre-joined from the external
tokenizer), literal, or a delimited group of token trees. -/
inductive Tok where
  | ident (s : String)
  | punct (s : String)
  | lit (s : String)
  | group (d : Delim) (ts : List Tok)

/-- Whether a token is the punctuation `s`. -/
def Tok.isPunctOf (s : String) : Tok → Bool
  | Tok.punct s2 => s2 == s
  | _ => false

theorem Tok.isPunctOf_iff (s : String) (t : Tok) :
    t.isPunctOf s = true ↔ t = Tok.punct s := by
  cases t <;> simp [Tok.isPunctOf]

/-- Whether a token is a brace-delimited group. -/
def Tok.isBraceGroup : Tok → Bool
  | Tok.group .brace _ => true
  | _ => false

/-- Whether a token is the identifier `s`. -/
def Tok.isIdentOf (s : String) : Tok → Bool
  | Tok.ident s2 => s2 == s
  | _ => false

/-- Opaque captured expression fragment (`syn::Expr` in the source). -/
abbrev Expr := List Tok

/-- Opaque captured pattern fragment (`syn::Pat` in the source). -/
abbrev Pat := List Tok

/-- One segment of an element path: an identifier optionally followed by
angle-bracketed generic parameters, captured as the raw token run between
the angle brackets (`syn::PathSegment`). -/
structure PathSeg where
  ident : String
  args  : Option (List Tok)

/-- A namespace-qualified identifier chain (`syn::Path`). -/
structure Path where
  leadingColon : Bool
  segments     : List PathSeg

/-- A `let` statement (`ast::Let`): spans of the `let`, `=` and `;`
tokens plus the captured pattern and initializer. -/
structure LetStmt where
  letSpan  : Span
  pat      : Pat
  eqSpan   : Span
  expr     : Expr
  semiSpan : Span

/-- One named node argument (`ast::NodeArg`): hyphen-separated identifier
segments and an optional value expression. -/
structure NodeArg where
  name  : List String
  value : Option Expr

/-- Node argument list (`ast::NodeArgs`): absent, named list, or a single
spread expression supplying the whole set. -/
inductive NodeArgs where
  | noArgs
  | named (args : List NodeArg)
  | rest (arg : Expr)

mutual
/-- A template statement (`ast::Stmt`). -/
inductive Stmt where
  | ifS (ifSpan : Span) (cond : Expr) (bracesSpan : Span) (body : Nodes) (els : OptElse)
  | matchS (matchSpan : Span) (scrut : Expr) (bracesSpan : Span) (arms : Arms)
  | forS (forSpan : Span) (pat : Pat) (inSpan : Span) (iter : Expr)
      (bracesSpan : Span) (body : Nodes)
  | letS (l : LetStmt)
  | textS (addSpan : Span) (e : Expr)
  | nodeS (element : Path) (args : NodeArgs) (body : NodeBody)

/-- Optional `else` clause of an `if` statement (`ast::Else`). -/
inductive OptElse where
  | noElse
  | someElse (elseSpan : Span) (bracesSpan : Span) (body : Nodes)

/-- Node body (`ast::NodeBody`): a terminating semicolon or a braced
child block. -/
inductive NodeBody where
  | semi (semiSpan : Span)
  | braced (bracesSpan : Span) (children : Nodes)

/-- One match arm (`ast::Arm`): captured pattern, optional guard
expression, and braced body block. -/
inductive ArmT where
  | mk (pat : Pat) (guard : Option Expr) (bracesSpan : Span) (body : Nodes)

/-- Ordered list of match arms. -/
inductive Arms where
  | nil
  | cons (a : ArmT) (rest : Arms)

/-- A block of statements (`ast::Nodes`). -/
inductive Nodes where
  | mk (stmts : Stmts)

/-- Ordered list of statements. -/
inductive Stmts where
  | nil
  | cons (s : Stmt) (rest : Stmts)
end

/-- The emitter's only error (`syn::Error` raised by `stmt_to_html`):
a diagnostic message positioned at a source span. -/
structure EmitError where
  span : Span
  msg  : String

/-- The ordering-violation diagnostic text from `stmt_to_html`. -/
def letOrderMsg : String := "let statements must precede all other statements in a block"

/-- Tokens of one path segment: the identifier, then `< ... >` around the
captured generic arguments when present. -/
def pathSegToks (s : PathSeg) : List Tok :=
  Tok.ident s.ident ::
    (match s.args with
     | none => []
     | some ts => Tok.punct "<" :: ts ++ [Tok.punct ">"])

/-- Segments joined by `::`. -/
def pathSegsToks : List PathSeg → List Tok
  | [] => []
  | [s] => pathSegToks s
  | s :: rest => pathSegToks s ++ Tok.punct "::" :: pathSegsToks rest

/-- Tokens of a full path (interpolation of a `syn::Path`). -/
def pathToks (p : Path) : List Tok :=
  (if p.leadingColon then [Tok.punct "::"] else []) ++ pathSegsToks p.segments

/-- Tokens of a hyphen-joined argument name (`Punctuated<Ident, Token![-]>`). -/
def argNameToks : List String → List Tok
  | [] => []
  | [s] => [Tok.ident s]
  | s :: rest => Tok.ident s :: Tok.punct "-" :: argNameToks rest

/-- Output of one named argument, from the closure in `args_to_html`:
shorthand arguments become `{name}`, valued arguments become
`name = {value}`. -/
def nodeArgToks (a : NodeArg) : List Tok :=
  match a.value with
  | none => [Tok.group .brace (argNameToks a.name)]
  | some v => argNameToks a.name ++ Tok.punct "=" :: [Tok.group .brace v]

/-- `args_to_html` from `src/lib.rs`: lower an argument list.  The
`Result` is always `Ok`; the signature mirrors the source. -/
def args_to_html : NodeArgs → Except EmitError (List Tok)
  | .noArgs => .ok []
  | .named args => .ok (args.map nodeArgToks).flatten
  | .rest arg => .ok (Tok.punct ".." :: arg)

/-- Tokens of one re-emitted leading `let` binding
(`#let_ #pat #eq #expr #semi`). -/
def letLocalToks (l : LetStmt) : List Tok :=
  Tok.ident "let" :: l.pat ++ Tok.punct "=" :: l.expr ++ [Tok.punct ";"]

/-- Strip the leading contiguous run of `let` statements from a block
(the `while let Some(ast::Stmt::Let(..)) = stmts.peek()` loop in `emit`). -/
def takeLeadingLets : Stmts → List LetStmt × Stmts
  | .nil => ([], .nil)
  | .cons (.letS l) rest =>
      let p := takeLeadingLets rest
      (l :: p.1, p.2)
  | .cons s rest => ([], .cons s rest)

/-- The final fragment call `#macro_path! { <> #(#node_html)* </> }`. -/
def fragmentToks (mp : Path) (children : List (List Tok)) : List Tok :=
  pathToks mp ++
    [Tok.punct "!",
     Tok.group .brace
       (Tok.punct "<" :: Tok.punct ">" ::
          children.flatten ++ [Tok.punct "<", Tok.punct "/", Tok.punct ">"])]

/-- The tokens `::std::iter::IntoIterator::into_iter` used by `for`
lowering. -/
def intoIterToks : List Tok :=
  [Tok.punct "::", Tok.ident "std", Tok.punct "::", Tok.ident "iter",
   Tok.punct "::", Tok.ident "IntoIterator", Tok.punct "::", Tok.ident "into_iter"]

/-- Guard interpolation `#if_ #expr` of a match arm. -/
def guardToks : Option Expr → List Tok
  | none => []
  | some e => Tok.ident "if" :: e

theorem sizeOf_takeLeadingLets : ∀ ss : Stmts, sizeOf (takeLeadingLets ss).2 ≤ sizeOf ss
  | .nil => by simp [takeLeadingLets]
  | .cons (.letS l) rest => by
      have ih := sizeOf_takeLeadingLets rest
      simp [takeLeadingLets]
      omega
  | .cons (.ifS a b c d e) rest => by simp [takeLeadingLets]
  | .cons (.matchS a b c d) rest => by simp [takeLeadingLets]
  | .cons (.forS a b c d e f) rest => by simp [takeLeadingLets]
  | .cons (.textS a b) rest => by simp [takeLeadingLets]
  | .cons (.nodeS a b c) rest => by simp [takeLeadingLets]

mutual
/-- `emit` from `src/lib.rs`: lower a block to the re-emitted leading
`let` bindings followed by one fragment-constructor invocation of the
macro path over the lowered remaining statements. -/
def emit (mp : Path) (sp : Span) (ns : Nodes) : Except EmitError (List Tok) :=
  match ns with
  | .mk stmts =>
      let p := takeLeadingLets stmts
      match stmtsToHtml mp p.2 with
      | .error e => .error e
      | .ok children =>
          .ok ((p.1.map letLocalToks).flatten ++ fragmentToks mp children)
termination_by sizeOf ns
decreasing_by
  simp_wf
  have h := sizeOf_takeLeadingLets stmts
  omega

/-- The `stmts.map(|stmt| stmt_to_html(..)).collect::<Result<_>>()`
traversal: lower each remaining statement in order, stopping at the
first error. -/
def stmtsToHtml (mp : Path) (ss : Stmts) : Except EmitError (List (List Tok)) :=
  match ss with
  | .nil => .ok []
  | .cons s rest =>
      match stmt_to_html mp s with
      | .error e => .error e
      | .ok t =>
          match stmtsToHtml mp rest with
          | .error e => .error e
          | .ok ts => .ok (t :: ts)
termination_by sizeOf ss
decreasing_by all_goals simp_wf <;> omega

/-- `stmt_to_html` from `src/lib.rs`: lower one statement. -/
def stmt_to_html (mp : Path) (s : Stmt) : Except EmitError (List Tok) :=
  match s with
  | .ifS _ cond ifBracesSpan body (.someElse _ elseBracesSpan elseBody) =>
      match emit mp ifBracesSpan body with
      | .error e => .error e
      | .ok ifBody =>
          match emit mp elseBracesSpan elseBody with
          | .error e => .error e
          | .ok elseBody' =>
              .ok [Tok.group .brace
                (Tok.ident "if" :: cond ++ [Tok.group .brace ifBody] ++
                 [Tok.ident "else", Tok.group .brace elseBody'])]
  | .ifS _ cond bracesSpan body .noElse =>
      match emit mp bracesSpan body with
      | .error e => .error e
      | .ok b =>
          .ok [Tok.group .brace
            (Tok.ident "if" :: cond ++
             [Tok.group .brace b, Tok.ident "else",
              Tok.group .brace (pathToks mp ++ [Tok.punct "!", Tok.group .brace []])])]
  | .matchS _ scrut _ arms =>
      match armsToHtml mp arms with
      | .error e => .error e
      | .ok armToks =>
          .ok [Tok.group .brace
            (Tok.ident "match" :: scrut ++ [Tok.group .brace armToks])]
  | .forS _ pat _ iter bracesSpan body =>
      match emit mp bracesSpan body with
      | .error e => .error e
      | .ok b =>
          .ok [Tok.group .brace
            (Tok.ident "for" :: intoIterToks ++
             [Tok.group .paren iter, Tok.punct ".", Tok.ident "map",
              Tok.group .paren (Tok.punct "|" :: pat ++ [Tok.punct "|", Tok.group .brace b])])]
  | .letS l => .error ⟨l.letSpan, letOrderMsg⟩
  | .textS _ e => .ok [Tok.group .brace e]
  | .nodeS element args body =>
      match args_to_html args with
      | .error e => .error e
      | .ok argToks =>
          match body with
          | .semi _ =>
              .ok (Tok.punct "<" :: pathToks element ++ argToks ++
                   [Tok.punct "/", Tok.punct ">"])
          | .braced bracesSpan children =>
              match emit mp bracesSpan children with
              | .error e => .error e
              | .ok ch =>
                  .ok (Tok.punct "<" :: pathToks element ++ argToks ++
                       [Tok.punct ">", Tok.group .brace ch, Tok.punct "<", Tok.punct "/"] ++
                       pathToks element ++ [Tok.punct ">"])
termination_by sizeOf s
decreasing_by all_goals simp_wf <;> omega

/-- The arm traversal inside `stmt_to_html`'s `Match` case: lower each
arm to `#pat #guard #fat_arrow { #body }` and concatenate in order. -/
def armsToHtml (mp : Path) (arms : Arms) : Except EmitError (List Tok) :=
  match arms with
  | .nil => .ok []
  | .cons (.mk pat guard bracesSpan body) rest =>
      match emit mp bracesSpan body with
      | .error e => .error e
      | .ok b =>
          match armsToHtml mp rest with
          | .error e => .error e
          | .ok restToks =>
              .ok (pat ++ guardToks guard ++
                   [Tok.punct "=>", Tok.group .brace b] ++ restToks)
termination_by sizeOf arms
decreasing_by all_goals simp_wf <;> omega
end

/-- A configuration directive (`ast::Config`): `@__debug_print` or
`@macro_path <path>`. -/
inductive ConfigDirective where
  | debugPrint (atSpan kwSpan : Span)
  | macroPath (atSpan kwSpan : Span) (path : Path)

/-- A parsed invocation (`ast::Input`): leading directives plus the root
block. -/
structure Input where
  configs : List ConfigDirective
  nodes   : Nodes

/-- The resolved settings (`Config` in `src/lib.rs`). -/
structure Config where
  debug_print : Bool
  macro_path  : Path

/-- The default settings built at the top of `run`: debug print off and
the fixed built-in entry point `::yew::html`. -/
def defaultConfig : Config :=
  { debug_print := false
    macro_path := { leadingColon := true, segments := [⟨"yew", none⟩, ⟨"html", none⟩] } }

/-- One iteration of the directive loop in `run`: a recognized directive
sets its own setting. -/
def applyConfig (c : Config) (d : ConfigDirective) : Config :=
  match d with
  | .debugPrint _ _ => { c with debug_print := true }
  | .macroPath _ _ p => { c with macro_path := p }

/-- The directive-resolution loop of `run`, starting from the defaults. -/
def resolveConfigs (ds : List ConfigDirective) : Config :=
  ds.foldl applyConfig defaultConfig

/-- The span `Span::call_site()` passed to the root `emit`. -/
def callSite : Span := 0

/-- `run` from `src/lib.rs`, after the parse stage: resolve the
directives, then emit the root block against the chosen entry point.
The optional debug print is I/O only and does not affect the returned
token stream. -/
def run (input : Input) : Except EmitError (List Tok) :=
  let config := resolveConfigs input.configs
  emit config.macro_path callSite input.nodes

/-! ## Parser

The parser consumes the external tokenizer's token-tree stream.  Parse
errors carry only a message here; the claims under verification do not
inspect parser diagnostics. -/

/-- Parse-error type. -/
abbrev PErr := String

/-- The reserved words rejected by `syn::Ident`'s ordinary parser and
accepted by `syn::Ident::parse_any`. -/
def rustKeywords : List String :=
  ["abstract", "as", "async", "await", "become", "box", "break", "const",
   "continue", "crate", "do", "dyn", "else", "enum", "extern", "false",
   "final", "fn", "for", "if", "impl", "in", "let", "loop", "macro",
   "match", "mod", "move", "mut", "override", "priv", "pub", "ref",
   "return", "Self", "self", "static", "struct", "super", "trait", "true",
   "try", "type", "typeof", "unsafe", "unsized", "use", "virtual", "where",
   "while", "yield"]

/-- `syn::Ident` parsing: accepts an identifier token that is not a
reserved word. -/
def parseIdentStrict : List Tok → Except PErr (String × List Tok)
  | Tok.ident s :: r =>
      if rustKeywords.contains s then .error "expected identifier"
      else .ok (s, r)
  | _ => .error "expected identifier"

/-- `syn::Ident::parse_any`: accepts any identifier token, reserved
words included. -/
def parseIdentAny : List Tok → Except PErr (String × List Tok)
  | Tok.ident s :: r => .ok (s, r)
  | _ => .error "expected identifier"

/-- Tokens ending an opaque expression capture at top level.  Expression
fragments are external (`syn::Expr`) and opaque per the specification;
this models where the expression grammar stops inside the constructs the
translator uses (before a statement `;`, an argument `,`, or an arm
`=>`). -/
def exprStop (t : Tok) : Bool :=
  t.isPunctOf ";" || t.isPunctOf "," || t.isPunctOf "=>"

/-- Opaque expression capture (`input.parse::<syn::Expr>()`): a nonempty
run of tokens up to a stop token. -/
def parseExpr (ts : List Tok) : Except PErr (Expr × List Tok) :=
  let e := ts.takeWhile (fun t => !exprStop t)
  if e.isEmpty then .error "expected expression"
  else .ok (e, ts.dropWhile (fun t => !exprStop t))

/-- Stop tokens of `syn::Expr::parse_without_eager_brace`: additionally
a top-level brace group is left for the following block. -/
def condStop (t : Tok) : Bool :=
  t.isBraceGroup || exprStop t

/-- Opaque expression capture in the non-eager-brace mode used for `if`
conditions, `match` scrutinees and `for` iterables. -/
def parseCondExpr (ts : List Tok) : Except PErr (Expr × List Tok) :=
  let e := ts.takeWhile (fun t => !condStop t)
  if e.isEmpty then .error "expected expression"
  else .ok (e, ts.dropWhile (fun t => !condStop t))

/-- Tokens ending an opaque pattern capture
(`syn::Pat::parse_multi_with_leading_vert`): the pattern grammar stops
before `=>`, `=`, a guard `if` or a loop `in`. -/
def patStop (t : Tok) : Bool :=
  t.isPunctOf "=>" || t.isPunctOf "=" || t.isIdentOf "if" || t.isIdentOf "in"

/-- Opaque pattern capture. -/
def parsePat (ts : List Tok) : Except PErr (Pat × List Tok) :=
  let e := ts.takeWhile (fun t => !patStop t)
  if e.isEmpty then .error "expected pattern"
  else .ok (e, ts.dropWhile (fun t => !patStop t))

/-- Consume the interior of an angle-bracketed generic-argument group
(after the opening `<`), tracking nesting depth; returns the captured
interior and the tokens after the matching `>`.  Models the external
`syn::AngleBracketedGenericArguments` parser as an opaque balanced
capture. -/
def angleInner : Nat → List Tok → Option (List Tok × List Tok)
  | _, [] => none
  | d, t :: r =>
      if t.isPunctOf "<" then
        (angleInner (d + 1) r).map (fun p => (t :: p.1, p.2))
      else if t.isPunctOf ">" then
        if d = 0 then some ([], r)
        else (angleInner (d - 1) r).map (fun p => (t :: p.1, p.2))
      else
        (angleInner d r).map (fun p => (t :: p.1, p.2))

theorem angleInner_length :
    ∀ (d : Nat) (ts : List Tok) (i rest : List Tok),
      angleInner d ts = some (i, rest) → rest.length < ts.length := by
  intro d ts
  induction ts generalizing d with
  | nil => intro i rest h; simp [angleInner] at h
  | cons t r ih =>
      intro i rest h
      simp only [angleInner] at h
      split at h
      · obtain ⟨p, hp, he⟩ := Option.map_eq_some'.mp h
        have := ih (d + 1) p.1 p.2 (by rw [hp])
        cases he
        simp
        omega
      · split at h
        · split at h
          · cases h
            simp
          · obtain ⟨p, hp, he⟩ := Option.map_eq_some'.mp h
            have := ih (d - 1) p.1 p.2 (by rw [hp])
            cases he
            simp
            omega
        · obtain ⟨p, hp, he⟩ := Option.map_eq_some'.mp h
          have := ih d p.1 p.2 (by rw [hp])
          cases he
          simp
          omega

/-- The segment loop of `parse_path_without_paren` in `src/ast.rs`: one
or more identifier segments, each optionally followed by angle-bracketed
generic parameters, joined by `::`.  The loop ends, without consuming
anything further, as soon as the next token is not `::` — in particular
a following parenthesized group is left in the stream.  `fuel` bounds
the number of segments; `parse_path_without_paren` passes a budget that
can never run out, since every segment consumes at least one token. -/
def parsePathSegments : Nat → List Tok → Except PErr (List PathSeg × List Tok)
  | 0, _ => .error "recursion limit"
  | fuel + 1, ts =>
      match ts with
      | Tok.ident s :: r1 =>
          if rustKeywords.contains s then .error "expected identifier"
          else
            match r1 with
            | t :: r2 =>
                if t.isPunctOf "<" then
                  match angleInner 0 r2 with
                  | none => .error "expected generic arguments"
                  | some (inner, r3) =>
                      match r3 with
                      | t3 :: r4 =>
                          if t3.isPunctOf "::" then
                            match parsePathSegments fuel r4 with
                            | .error e => .error e
                            | .ok (segs, rest) => .ok (⟨s, some inner⟩ :: segs, rest)
                          else .ok ([⟨s, some inner⟩], t3 :: r4)
                      | [] => .ok ([⟨s, some inner⟩], [])
                else if t.isPunctOf "::" then
                  match parsePathSegments fuel r2 with
                  | .error e => .error e
                  | .ok (segs, rest) => .ok (⟨s, none⟩ :: segs, rest)
                else .ok ([⟨s, none⟩], t :: r2)
            | [] => .ok ([⟨s, none⟩], [])
      | _ => .error "expected identifier"

/-- `parse_path_without_paren` from `src/ast.rs`: an optional leading
`::`, then the segment chain. -/
def parse_path_without_paren (ts : List Tok) : Except PErr (Path × List Tok) :=
  match ts with
  | t :: r =>
      if t.isPunctOf "::" then
        match parsePathSegments ts.length r with
        | .error e => .error e
        | .ok (segs, rest) => .ok ({ leadingColon := true, segments := segs }, rest)
      else
        match parsePathSegments ts.length (t :: r) with
        | .error e => .error e
        | .ok (segs, rest) => .ok ({ leadingColon := false, segments := segs }, rest)
  | [] => .error "expected identifier"

/-- The name part of `NodeArg::parse`:
`Punctuated::parse_separated_nonempty_with(input, syn::Ident::parse_any)`
over the separator `-` — one or more identifier segments, reserved words
permitted, joined by hyphens. -/
def parseSegIdents : List Tok → Except PErr (List String × List Tok)
  | Tok.ident s :: t :: r2 =>
      if t.isPunctOf "-" then
        match parseSegIdents r2 with
        | .error e => .error e
        | .ok (segs, rest) => .ok (s :: segs, rest)
      else .ok ([s], t :: r2)
  | [Tok.ident s] => .ok ([s], [])
  | _ => .error "expected identifier"

/-- `NodeArg::parse`: the hyphen-joined name, then an optional `= expr`
value. -/
def parseNodeArg (ts : List Tok) : Except PErr (NodeArg × List Tok) :=
  match parseSegIdents ts with
  | .error e => .error e
  | .ok (name, r) =>
      match r with
      | t :: r2 =>
          if t.isPunctOf "=" then
            match parseExpr r2 with
            | .error e => .error e
            | .ok (v, rest) => .ok ({ name := name, value := some v }, rest)
          else .ok ({ name := name, value := none }, t :: r2)
      | [] => .ok ({ name := name, value := none }, [])

theorem dropWhile_length_le (p : Tok → Bool) :
    ∀ ts : List Tok, (ts.dropWhile p).length ≤ ts.length := by
  intro ts
  induction ts with
  | nil => simp
  | cons t r ih =>
      by_cases hp : p t
      · simp [List.dropWhile_cons, hp]
        omega
      · simp [List.dropWhile_cons, hp]

theorem parseExpr_length (ts : List Tok) (e : Expr) (rest : List Tok)
    (h : parseExpr ts = .ok (e, rest)) : rest.length ≤ ts.length := by
  simp only [parseExpr] at h
  split at h
  · cases h
  · cases h
    exact dropWhile_length_le _ ts

theorem parseSegIdents_length :
    ∀ (ts : List Tok) segs rest, parseSegIdents ts = .ok (segs, rest) → rest.length < ts.length
  | Tok.ident s :: t :: r2 => by
      intro segs rest h
      simp only [parseSegIdents] at h
      by_cases hp : t.isPunctOf "-"
      · rw [if_pos hp] at h
        cases hr : parseSegIdents r2 with
        | error e => rw [hr] at h; cases h
        | ok p =>
            rw [hr] at h
            cases h
            have := parseSegIdents_length r2 p.1 p.2 (by rw [hr])
            simp
            omega
      · rw [if_neg hp] at h
        cases h
        simp
  | [Tok.ident s] => by
      intro segs rest h
      simp only [parseSegIdents] at h
      cases h
      simp
  | [] => by intro segs rest h; simp [parseSegIdents] at h
  | Tok.punct s :: r => by intro segs rest h; simp [parseSegIdents] at h
  | Tok.lit s :: r => by intro segs rest h; simp [parseSegIdents] at h
  | Tok.group d g :: r => by intro segs rest h; simp [parseSegIdents] at h

theorem parseNodeArg_length (ts : List Tok) (a : NodeArg) (rest : List Tok)
    (h : parseNodeArg ts = .ok (a, rest)) : rest.length < ts.length := by
  simp only [parseNodeArg] at h
  split at h
  · cases h
  · rename_i p name r heq
    have hlen := parseSegIdents_length ts name r heq
    split at h
    · rename_i t r2
      split at h
      · split at h
        · cases h
        · rename_i he
          cases h
          have := parseExpr_length r2 _ _ he
          simp at hlen
          omega
      · cases h
        exact hlen
    · cases h
      exact hlen

/-- `Punctuated::<NodeArg, Token![,]>::parse_terminated` over the
interior of the argument parentheses: a comma-separated list of `NodeArg`
with optional trailing comma, possibly empty. -/
def parseNodeArgList (ts : List Tok) : Except PErr (List NodeArg) :=
  match hts : ts with
  | [] => .ok []
  | _ :: _ =>
      match h : parseNodeArg ts with
      | .error e => .error e
      | .ok (a, r) =>
          match r with
          | [] => .ok [a]
          | t :: r2 =>
              if t.isPunctOf "," then
                match parseNodeArgList r2 with
                | .error e => .error e
                | .ok rest => .ok (a :: rest)
              else .error "expected comma"
termination_by ts.length
decreasing_by
  have := parseNodeArg_length ts a (t :: r2) h
  rw [hts] at this
  simp at this ⊢
  omega

/-- `NodeArgs::parse`: `=` starts a spread (`Rest`); a parenthesized
group holds the named list; `{` or `;` mean no arguments and are left in
the stream; anything else is a syntax error (the `lookahead1`). -/
def parseNodeArgs (ts : List Tok) : Except PErr (NodeArgs × List Tok) :=
  match ts with
  | Tok.punct "=" :: r =>
      match parseExpr r with
      | .error e => .error e
      | .ok (e, rest) => .ok (.rest e, rest)
  | Tok.group .paren inner :: r =>
      match parseNodeArgList inner with
      | .error e => .error e
      | .ok args => .ok (.named args, r)
  | Tok.group .brace g :: r => .ok (.noArgs, Tok.group .brace g :: r)
  | Tok.punct ";" :: r => .ok (.noArgs, Tok.punct ";" :: r)
  | _ => .error "expected node arguments"

/-- `Let::parse`: `let`, pattern, `=`, initializer, `;`. -/
def parseLetStmt (ts : List Tok) : Except PErr (LetStmt × List Tok) :=
  match ts with
  | Tok.ident "let" :: r =>
      match parsePat r with
      | .error e => .error e
      | .ok (pat, r1) =>
          match r1 with
          | Tok.punct "=" :: r2 =>
              match parseExpr r2 with
              | .error e => .error e
              | .ok (e, r3) =>
                  match r3 with
                  | Tok.punct ";" :: r4 => .ok (⟨0, pat, 0, e, 0⟩, r4)
                  | _ => .error "expected semicolon"
          | _ => .error "expected equals sign"
  | _ => .error "expected let"

/-- `Text::parse`: `+`, expression, `;`. -/
def parseText (ts : List Tok) : Except PErr (Stmt × List Tok) :=
  match ts with
  | Tok.punct "+" :: r =>
      match parseExpr r with
      | .error e => .error e
      | .ok (e, r1) =>
          match r1 with
          | Tok.punct ";" :: r2 => .ok (.textS 0 e, r2)
          | _ => .error "expected semicolon"
  | _ => .error "expected plus sign"

/-- `Config::parse`: `@`, then the custom keyword `__debug_print` or
`macro_path` followed by a path.  The path argument uses the external
`syn::Path` parser, modelled here by the qualified-name grammar. -/
def parseConfig (ts : List Tok) : Except PErr (ConfigDirective × List Tok) :=
  match ts with
  | Tok.punct "@" :: Tok.ident "__debug_print" :: r => .ok (.debugPrint 0 0, r)
  | Tok.punct "@" :: Tok.ident "macro_path" :: r =>
      match parse_path_without_paren r with
      | .error e => .error e
      | .ok (p, rest) => .ok (.macroPath 0 0 p, rest)
  | _ => .error "expected directive"

mutual
/-- `Nodes::parse`: statements until the stream is exhausted.  The
`fuel` argument bounds recursion depth (call-stack depth in the source);
concrete uses instantiate it large enough. -/
def parseStmts : Nat → List Tok → Except PErr Stmts
  | _, [] => .ok .nil
  | 0, _ :: _ => .error "recursion limit"
  | fuel + 1, t :: r =>
      match parseStmt fuel (t :: r) with
      | .error e => .error e
      | .ok (s, rest) =>
          match parseStmts fuel rest with
          | .error e => .error e
          | .ok ss => .ok (.cons s ss)

/-- `Stmt::parse`: single-lookahead dispatch on `if`, `match`, `for`,
`let`, `+` and a non-keyword identifier; anything else is a syntax
error. -/
def parseStmt : Nat → List Tok → Except PErr (Stmt × List Tok)
  | 0, _ => .error "recursion limit"
  | fuel + 1, ts =>
      match ts with
      | Tok.ident "if" :: _ => parseIf fuel ts
      | Tok.ident "match" :: _ => parseMatch fuel ts
      | Tok.ident "for" :: _ => parseFor fuel ts
      | Tok.ident "let" :: _ =>
          match parseLetStmt ts with
          | .error e => .error e
          | .ok (l, rest) => .ok (.letS l, rest)
      | Tok.punct "+" :: _ => parseText ts
      | Tok.ident s :: _ =>
          if rustKeywords.contains s then .error "expected statement"
          else parseNode fuel ts
      | _ => .error "expected statement"

/-- `If::parse`: condition in non-eager-brace mode, braced body, then an
optional `else` with a braced body. -/
def parseIf : Nat → List Tok → Except PErr (Stmt × List Tok)
  | 0, _ => .error "recursion limit"
  | fuel + 1, ts =>
      match ts with
      | Tok.ident "if" :: r =>
          match parseCondExpr r with
          | .error e => .error e
          | .ok (cond, r1) =>
              match r1 with
              | Tok.group .brace inner :: r2 =>
                  match parseStmts fuel inner with
                  | .error e => .error e
                  | .ok body =>
                      match r2 with
                      | Tok.ident "else" :: r3 =>
                          match r3 with
                          | Tok.group .brace inner2 :: r4 =>
                              match parseStmts fuel inner2 with
                              | .error e => .error e
                              | .ok body2 =>
                                  .ok (.ifS 0 cond 0 (.mk body)
                                        (.someElse 0 0 (.mk body2)), r4)
                          | _ => .error "expected braces"
                      | _ => .ok (.ifS 0 cond 0 (.mk body) .noElse, r2)
              | _ => .error "expected braces"
      | _ => .error "expected if"

/-- `Match::parse`: scrutinee in non-eager-brace mode, then a braced
group of arms parsed until the group is exhausted. -/
def parseMatch : Nat → List Tok → Except PErr (Stmt × List Tok)
  | 0, _ => .error "recursion limit"
  | fuel + 1, ts =>
      match ts with
      | Tok.ident "match" :: r =>
          match parseCondExpr r with
          | .error e => .error e
          | .ok (scrut, r1) =>
              match r1 with
              | Tok.group .brace inner :: r2 =>
                  match parseArms fuel inner with
                  | .error e => .error e
                  | .ok arms => .ok (.matchS 0 scrut 0 arms, r2)
              | _ => .error "expected braces"
      | _ => .error "expected match"

/-- The arm loop of `Match::parse`. -/
def parseArms : Nat → List Tok → Except PErr Arms
  | _, [] => .ok .nil
  | 0, _ :: _ => .error "recursion limit"
  | fuel + 1, t :: r =>
      match parseArm fuel (t :: r) with
      | .error e => .error e
      | .ok (a, rest) =>
          match parseArms fuel rest with
          | .error e => .error e
          | .ok arms => .ok (.cons a arms)

/-- `Arm::parse`: pattern (leading-vert alternation allowed), optional
`if` guard, `=>`, braced body. -/
def parseArm : Nat → List Tok → Except PErr (ArmT × List Tok)
  | 0, _ => .error "recursion limit"
  | fuel + 1, ts =>
      match parsePat ts with
      | .error e => .error e
      | .ok (pat, r1) =>
          match r1 with
          | Tok.ident "if" :: r2 =>
              match parseExpr r2 with
              | .error e => .error e
              | .ok (g, r3) =>
                  match r3 with
                  | Tok.punct "=>" :: Tok.group .brace inner :: r4 =>
                      match parseStmts fuel inner with
                      | .error e => .error e
                      | .ok body => .ok (.mk pat (some g) 0 (.mk body), r4)
                  | _ => .error "expected fat arrow and braces"
          | Tok.punct "=>" :: Tok.group .brace inner :: r4 =>
              match parseStmts fuel inner with
              | .error e => .error e
              | .ok body => .ok (.mk pat none 0 (.mk body), r4)
          | _ => .error "expected fat arrow"

/-- `For::parse`: `for`, pattern, `in`, iterable in non-eager-brace
mode, braced body. -/
def parseFor : Nat → List Tok → Except PErr (Stmt × List Tok)
  | 0, _ => .error "recursion limit"
  | fuel + 1, ts =>
      match ts with
      | Tok.ident "for" :: r =>
          match parsePat r with
          | .error e => .error e
          | .ok (pat, r1) =>
              match r1 with
              | Tok.ident "in" :: r2 =>
                  match parseCondExpr r2 with
                  | .error e => .error e
                  | .ok (iter, r3) =>
                      match r3 with
                      | Tok.group .brace inner :: r4 =>
                          match parseStmts fuel inner with
                          | .error e => .error e
                          | .ok body => .ok (.forS 0 pat 0 iter 0 (.mk body), r4)
                      | _ => .error "expected braces"
              | _ => .error "expected in"
      | _ => .error "expected for"

/-- `Node::parse`: element path without parentheses, arguments, then the
body lookahead of `NodeBody::parse` (`;` or a braced child block). -/
def parseNode : Nat → List Tok → Except PErr (Stmt × List Tok)
  | 0, _ => .error "recursion limit"
  | fuel + 1, ts =>
      match parse_path_without_paren ts with
      | .error e => .error e
      | .ok (p, r) =>
          match parseNodeArgs r with
          | .error e => .error e
          | .ok (args, r2) =>
              match r2 with
              | Tok.punct ";" :: r3 => .ok (.nodeS p args (.semi 0), r3)
              | Tok.group .brace inner :: r3 =>
                  match parseStmts fuel inner with
                  | .error e => .error e
                  | .ok children =>
                      .ok (.nodeS p args (.braced 0 (.mk children)), r3)
              | _ => .error "expected node body"
end

/-- The directive loop of `Input::parse`: directives while the next
token is `@`. -/
def parseConfigs : Nat → List Tok → Except PErr (List ConfigDirective × List Tok)
  | 0, _ => .error "recursion limit"
  | fuel + 1, ts =>
      match ts with
      | Tok.punct "@" :: _ =>
          match parseConfig ts with
          | .error e => .error e
          | .ok (c, rest) =>
              match parseConfigs fuel rest with
              | .error e => .error e
              | .ok (cs, rest2) => .ok (c :: cs, rest2)
      | _ => .ok ([], ts)

/-- `Input::parse`: leading directives, then statements to the end of
the stream. -/
def parseInput (fuel : Nat) (ts : List Tok) : Except PErr Input :=
  match parseConfigs fuel ts with
  | .error e => .error e
  | .ok (cs, rest) =>
      match parseStmts fuel rest with
      | .error e => .error e
      | .ok ss => .ok ⟨cs, .mk ss⟩

/-- Specification-side description of one named argument's output,
written from the spec's words: "each Named, non-spread Arg emits
`name = { value }` (shorthand Args resolve `value` to a reference with
the same name as the argument)".  A shorthand argument's emitted form is
a braced group holding exactly the argument's own name tokens — the
reference to the same-named binding. -/
def specArgOutput (a : NodeArg) : List Tok :=
  match a.value with
  | some v => argNameToks a.name ++ [Tok.punct "=", Tok.group .brace v]
  | none => [Tok.group .brace (argNameToks a.name)]

/-- The total value of `args_to_html` (which never errors). -/
def argsOut : NodeArgs → List Tok
  | .noArgs => []
  | .named args => (args.map nodeArgToks).flatten
  | .rest arg => Tok.punct ".." :: arg

/-- The statements of a block. -/
def nodesStmts : Nodes → Stmts
  | .mk ss => ss

/-- Whether a statement is a `let`. -/
def isLetStmt : Stmt → Bool
  | .letS _ => true
  | _ => false

/-- Plain-list view of a statement sequence. -/
def stmtsToList : Stmts → List Stmt
  | .nil => []
  | .cons s r => s :: stmtsToList r

/-- Whether a statement sequence contains a `let` at its own level. -/
def hasLetS : Stmts → Bool
  | .nil => false
  | .cons s r => isLetStmt s || hasLetS r

mutual
/-- Position of the first misplaced `let` the emitter would reach in a
block, in the emitter's own traversal order: the leading contiguous
`let` run is stripped, then each remaining statement is inspected
depth-first. -/
def firstViolationN : Nodes → Option Span
  | .mk stmts => firstViolationS (takeLeadingLets stmts).2
termination_by ns => sizeOf ns
decreasing_by
  simp_wf
  have h := sizeOf_takeLeadingLets stmts
  omega

/-- First violation among the post-strip statements of a block. -/
def firstViolationS : Stmts → Option Span
  | .nil => none
  | .cons s rest =>
      match firstViolationStmt s with
      | some v => some v
      | none => firstViolationS rest
termination_by ss => sizeOf ss
decreasing_by all_goals simp_wf <;> omega

/-- First violation inside one post-strip statement: a `let` here is
itself the violation; other statements are searched depth-first in the
order the emitter lowers their blocks. -/
def firstViolationStmt : Stmt → Option Span
  | .ifS _ _ _ body els =>
      match firstViolationN body with
      | some v => some v
      | none => firstViolationElse els
  | .matchS _ _ _ arms => firstViolationArms arms
  | .forS _ _ _ _ _ body => firstViolationN body
  | .letS l => some l.letSpan
  | .textS _ _ => none
  | .nodeS _ _ body => firstViolationBody body
termination_by s => sizeOf s
decreasing_by all_goals simp_wf <;> omega

/-- First violation in an optional `else` body. -/
def firstViolationElse : OptElse → Option Span
  | .noElse => none
  | .someElse _ _ body => firstViolationN body
termination_by e => sizeOf e
decreasing_by all_goals simp_wf <;> omega

/-- First violation in a node body. -/
def firstViolationBody : NodeBody → Option Span
  | .semi _ => none
  | .braced _ children => firstViolationN children
termination_by b => sizeOf b
decreasing_by all_goals simp_wf <;> omega

/-- First violation among match arms, in arm order. -/
def firstViolationArms : Arms → Option Span
  | .nil => none
  | .cons (.mk _ _ _ body) rest =>
      match firstViolationN body with
      | some v => some v
      | none => firstViolationArms rest
termination_by arms => sizeOf arms
decreasing_by all_goals simp_wf <;> omega
end

/-- Whether a token run contains no top-level `;` (true of every opaque
expression or pattern capture: a `;` can only occur nested inside a
delimited group). -/
def noSemi (ts : List Tok) : Bool :=
  ts.all (fun t => !t.isPunctOf ";")

/-- Drop tokens through the first top-level `;`. -/
def skipToSemi : List Tok → Option (List Tok)
  | [] => none
  | t :: r => if t.isPunctOf ";" then some r else skipToSemi r

theorem skipToSemi_length :
    ∀ ts r, skipToSemi ts = some r → r.length < ts.length := by
  intro ts
  induction ts with
  | nil => intro r h; simp [skipToSemi] at h
  | cons t rest ih =>
      intro r h
      simp only [skipToSemi] at h
      split at h
      · cases h
        simp
      · have := ih r h
        simp
        omega

/-- Count the leading `let` bindings of an emitted token stream: a
binding starts with the identifier `let` and runs through the first
top-level `;`. -/
def countLeadingBindings (ts : List Tok) : Nat :=
  match ts with
  | [] => 0
  | t :: r =>
      if t.isIdentOf "let" then
        match h : skipToSemi r with
        | some r2 => countLeadingBindings r2 + 1
        | none => 1
      else 0
termination_by ts.length
decreasing_by
  have := skipToSemi_length _ r2 h
  simp
  omega

/-- Whether a stream does not start with the identifier `let`. -/
def headNotLet : List Tok → Bool
  | [] => true
  | t :: _ => !t.isIdentOf "let"

/-- Well-formedness of one path segment as the segment parser produces
it: a non-keyword identifier and angle-balanced generic arguments. -/
def angleOkAux : Nat → List Tok → Bool
  | d, [] => d == 0
  | d, t :: r =>
      if t.isPunctOf "<" then angleOkAux (d + 1) r
      else if t.isPunctOf ">" then
        if d == 0 then false else angleOkAux (d - 1) r
      else angleOkAux d r

/-- Segment well-formedness. -/
def segWf (s : PathSeg) : Bool :=
  !rustKeywords.contains s.ident &&
    (match s.args with
     | none => true
     | some i => angleOkAux 0 i)

/-- Path well-formedness: at least one segment, all well-formed (every
path the parser itself produces satisfies this). -/
def pathWf (p : Path) : Bool :=
  !p.segments.isEmpty && p.segments.all segWf

/-- Whether a stream may follow a complete element reference without
being absorbed into it (it does not begin with `::` or `<`). -/
def pathStopOk : List Tok → Bool
  | [] => true
  | t :: _ => !t.isPunctOf "::" && !t.isPunctOf "<"

/-! ## Supporting lemmas -/

theorem nodeArgToks_eq_specArgOutput (a : NodeArg) : nodeArgToks a = specArgOutput a := by
  cases h : a.value <;> simp [nodeArgToks, specArgOutput, h]

theorem args_to_html_eq (a : NodeArgs) : args_to_html a = .ok (argsOut a) := by
  cases a <;> rfl

theorem foldl_applyConfig_path_preserved :
    ∀ (post : List ConfigDirective) (c : Config),
      (∀ a k p, ConfigDirective.macroPath a k p ∉ post) →
      (post.foldl applyConfig c).macro_path = c.macro_path := by
  intro post
  induction post with
  | nil => intro c _; rfl
  | cons d rest ih =>
      intro c hn
      cases d with
      | debugPrint a k =>
          simp only [List.foldl_cons]
          rw [ih _ (fun a k p hm => hn a k p (List.mem_cons_of_mem _ hm))]
          rfl
      | macroPath a k p => exact absurd (List.mem_cons_self _ _) (hn a k p)

theorem foldl_applyConfig_debug_preserved :
    ∀ (ds : List ConfigDirective) (c : Config),
      c.debug_print = true → (ds.foldl applyConfig c).debug_print = true := by
  intro ds
  induction ds with
  | nil => intro c h; exact h
  | cons d rest ih =>
      intro c h
      cases d with
      | debugPrint a k => exact ih _ rfl
      | macroPath a k p => exact ih _ h

theorem foldl_applyConfig_debug_mem :
    ∀ (ds : List ConfigDirective) (a k : Span) (c : Config),
      ConfigDirective.debugPrint a k ∈ ds →
      (ds.foldl applyConfig c).debug_print = true := by
  intro ds
  induction ds with
  | nil => intro a k c h; cases h
  | cons d rest ih =>
      intro a k c h
      cases List.mem_cons.mp h with
      | inl he =>
          subst he
          exact foldl_applyConfig_debug_preserved rest _ rfl
      | inr hm => exact ih a k _ hm

/-! ## Claims -/

/-- C1: for every Node argument list, each named argument with an
explicit value compiles to the pair `name = { value }`, and each named
argument without an explicit value (shorthand) compiles to a braced
group holding exactly the argument's own name — a reference to the
in-scope binding with the same name as the argument. -/
theorem C1_argument_lowering (args : List NodeArg) :
    args_to_html (NodeArgs.named args) = .ok ((args.map specArgOutput).flatten) ∧
    (∀ (a : NodeArg) (v : Expr), a.value = some v →
        specArgOutput a = argNameToks a.name ++ [Tok.punct "=", Tok.group .brace v]) ∧
    (∀ a : NodeArg, a.value = none →
        specArgOutput a = [Tok.group .brace (argNameToks a.name)]) := by
  refine ⟨?_, ?_, ?_⟩
  · have hfn : nodeArgToks = specArgOutput := funext nodeArgToks_eq_specArgOutput
    simp [args_to_html, hfn]
  · intro a v hv
    simp [specArgOutput, hv]
  · intro a hv
    simp [specArgOutput, hv]

theorem C1_argument_lowering_witness :
    args_to_html (NodeArgs.named
        [⟨["a"], some [Tok.ident "b"]⟩, ⟨["checked"], none⟩]) =
      .ok [Tok.ident "a", Tok.punct "=", Tok.group .brace [Tok.ident "b"],
           Tok.group .brace [Tok.ident "checked"]] ∧
    specArgOutput ⟨["checked"], none⟩ = [Tok.group .brace [Tok.ident "checked"]] := by
  refine ⟨?_, (C1_argument_lowering []).2.2 ⟨["checked"], none⟩ rfl⟩
  have h := (C1_argument_lowering [⟨["a"], some [Tok.ident "b"]⟩, ⟨["checked"], none⟩]).1
  simpa [specArgOutput, argNameToks] using h

/-- C3: for every `If` statement with no `Else` clause, the compiled
output is a conditional whose then-branch is the recursively lowered
then-block and whose else-branch is an explicit invocation of the
resolved entry point on an empty fragment (`#macro_path! {}`), never a
bare unit value. -/
theorem C3_if_without_else (mp : Path) (ifSpan : Span) (cond : Expr)
    (bracesSpan : Span) (body : Nodes) (b : List Tok)
    (h : emit mp bracesSpan body = .ok b) :
    stmt_to_html mp (.ifS ifSpan cond bracesSpan body .noElse) =
      .ok [Tok.group .brace
        (Tok.ident "if" :: cond ++
         [Tok.group .brace b, Tok.ident "else",
          Tok.group .brace
            (pathToks mp ++ [Tok.punct "!", Tok.group .brace []])])] := by
  simp [stmt_to_html, h]

unseal emit stmtsToHtml stmt_to_html armsToHtml in
theorem C3_if_without_else_witness :
    stmt_to_html defaultConfig.macro_path
        (.ifS 0 [Tok.ident "c"] 0 (Nodes.mk .nil) .noElse) =
      .ok [Tok.group .brace
        (Tok.ident "if" :: [Tok.ident "c"] ++
         [Tok.group .brace (fragmentToks defaultConfig.macro_path []),
          Tok.ident "else",
          Tok.group .brace
            (pathToks defaultConfig.macro_path ++
             [Tok.punct "!", Tok.group .brace []])])] :=
  C3_if_without_else defaultConfig.macro_path 0 [Tok.ident "c"] 0 (Nodes.mk .nil)
    (fragmentToks defaultConfig.macro_path []) rfl

/-- C4: for every Node statement, a self-closing (semicolon) body
compiles to a single self-closing tagged element carrying the lowered
arguments, and a braced body compiles to an open/close tagged element
whose sole child content is the recursively compiled fragment of that
block. -/
theorem C4_node_bodies (mp : Path) (element : Path) (args : NodeArgs) :
    (∀ semiSpan : Span,
        stmt_to_html mp (.nodeS element args (.semi semiSpan)) =
          .ok (Tok.punct "<" :: pathToks element ++ argsOut args ++
               [Tok.punct "/", Tok.punct ">"])) ∧
    (∀ (bracesSpan : Span) (children : Nodes) (ch : List Tok),
        emit mp bracesSpan children = .ok ch →
        stmt_to_html mp (.nodeS element args (.braced bracesSpan children)) =
          .ok (Tok.punct "<" :: pathToks element ++ argsOut args ++
               [Tok.punct ">", Tok.group .brace ch, Tok.punct "<", Tok.punct "/"] ++
               pathToks element ++ [Tok.punct ">"])) := by
  constructor
  · intro semiSpan
    simp [stmt_to_html, args_to_html_eq]
  · intro bracesSpan children ch h
    simp [stmt_to_html, args_to_html_eq, h]

unseal emit stmtsToHtml stmt_to_html armsToHtml in
theorem C4_node_bodies_witness :
    stmt_to_html defaultConfig.macro_path
        (.nodeS ⟨false, [⟨"br", none⟩]⟩ .noArgs (.braced 0 (Nodes.mk .nil))) =
      .ok (Tok.punct "<" :: pathToks ⟨false, [⟨"br", none⟩]⟩ ++ argsOut .noArgs ++
           [Tok.punct ">",
            Tok.group .brace (fragmentToks defaultConfig.macro_path []),
            Tok.punct "<", Tok.punct "/"] ++
           pathToks ⟨false, [⟨"br", none⟩]⟩ ++ [Tok.punct ">"]) :=
  (C4_node_bodies defaultConfig.macro_path ⟨false, [⟨"br", none⟩]⟩ .noArgs).2
    0 (Nodes.mk .nil) (fragmentToks defaultConfig.macro_path []) rfl

/-- C5: for every Node with named arguments, the compiled forms appear
in exactly the order the arguments were written (compiling `xs ++ ys`
emits the forms of `xs` before those of `ys`), and a spread argument
compiles to exactly the single rest-expansion marker `..expr` with no
discrete name/value pairs. -/
theorem C5_argument_order_spread :
    (∀ xs ys : List NodeArg,
        args_to_html (NodeArgs.named (xs ++ ys)) =
          .ok ((xs.map nodeArgToks).flatten ++ (ys.map nodeArgToks).flatten)) ∧
    (∀ arg : Expr, args_to_html (NodeArgs.rest arg) = .ok (Tok.punct ".." :: arg)) := by
  constructor
  · intro xs ys
    simp [args_to_html]
  · intro arg
    rfl

/-- C6: for every For statement, the compiled output converts the
iterable via `::std::iter::IntoIterator::into_iter` and applies `.map`
to a closure binding the loop pattern whose body is the recursively
lowered loop block; no materializing combinator is applied, so the
result is the lazy mapped iterator itself, passed as the enclosing
fragment's child. -/
theorem C6_for_lowering (mp : Path) (forSpan : Span) (pat : Pat)
    (inSpan : Span) (iter : Expr) (bracesSpan : Span) (body : Nodes)
    (b : List Tok) (h : emit mp bracesSpan body = .ok b) :
    stmt_to_html mp (.forS forSpan pat inSpan iter bracesSpan body) =
      .ok [Tok.group .brace
        (Tok.ident "for" :: intoIterToks ++
         [Tok.group .paren iter, Tok.punct ".", Tok.ident "map",
          Tok.group .paren
            (Tok.punct "|" :: pat ++ [Tok.punct "|", Tok.group .brace b])])] := by
  simp [stmt_to_html, h]

unseal emit stmtsToHtml stmt_to_html armsToHtml in
theorem C6_for_lowering_witness :
    stmt_to_html defaultConfig.macro_path
        (.forS 0 [Tok.ident "x"] 0 [Tok.ident "xs"] 0 (Nodes.mk .nil)) =
      .ok [Tok.group .brace
        (Tok.ident "for" :: intoIterToks ++
         [Tok.group .paren [Tok.ident "xs"], Tok.punct ".", Tok.ident "map",
          Tok.group .paren
            (Tok.punct "|" :: [Tok.ident "x"] ++
             [Tok.punct "|",
              Tok.group .brace (fragmentToks defaultConfig.macro_path [])])])] :=
  C6_for_lowering defaultConfig.macro_path 0 [Tok.ident "x"] 0 [Tok.ident "xs"] 0
    (Nodes.mk .nil) (fragmentToks defaultConfig.macro_path []) rfl

/-- C8: directive resolution starts from the defaults (debug print off,
entry point the fixed built-in `::yew::html`); a `MacroPath` directive
not overridden later routes the final wrapping invocation through its
path; a `DebugPrint` directive turns the debug flag on; `run` emits
against the resolved entry point. -/
theorem C8_directive_resolution :
    resolveConfigs [] = defaultConfig ∧
    defaultConfig.debug_print = false ∧
    defaultConfig.macro_path =
      { leadingColon := true, segments := [⟨"yew", none⟩, ⟨"html", none⟩] } ∧
    (∀ input : Input,
        run input = emit (resolveConfigs input.configs).macro_path callSite input.nodes) ∧
    (∀ (pre post : List ConfigDirective) (a k : Span) (p : Path),
        (∀ a2 k2 p2, ConfigDirective.macroPath a2 k2 p2 ∉ post) →
        (resolveConfigs (pre ++ ConfigDirective.macroPath a k p :: post)).macro_path = p) ∧
    (∀ (ds : List ConfigDirective) (a k : Span),
        ConfigDirective.debugPrint a k ∈ ds →
        (resolveConfigs ds).debug_print = true) := by
  refine ⟨rfl, rfl, rfl, fun input => rfl, ?_, ?_⟩
  · intro pre post a k p hn
    simp only [resolveConfigs, List.foldl_append, List.foldl_cons]
    rw [foldl_applyConfig_path_preserved post _ hn]
    rfl
  · intro ds a k h
    exact foldl_applyConfig_debug_mem ds a k _ h

theorem C8_directive_resolution_witness :
    (resolveConfigs
        [ConfigDirective.macroPath 0 0 ⟨false, [⟨"my_markup", none⟩]⟩]).macro_path =
      ⟨false, [⟨"my_markup", none⟩]⟩ ∧
    (resolveConfigs [ConfigDirective.debugPrint 0 0]).debug_print = true :=
  ⟨C8_directive_resolution.2.2.2.2.1 [] [] 0 0 _ (by intro a2 k2 p2; simp),
   C8_directive_resolution.2.2.2.2.2 [ConfigDirective.debugPrint 0 0] 0 0 (by simp)⟩

/-- C10: a completely empty input is accepted by the parser; emitting an
empty block succeeds with zero leading bindings and exactly one
invocation of the resolved entry point on a fragment with zero children;
a `match` with zero arms parses and lowers to a match expression with no
arms. -/
theorem C10_empty_input :
    parseInput 1 [] = .ok ⟨[], Nodes.mk .nil⟩ ∧
    (∀ (mp : Path) (sp : Span),
        emit mp sp (Nodes.mk .nil) =
          .ok (pathToks mp ++
            [Tok.punct "!",
             Tok.group .brace
               [Tok.punct "<", Tok.punct ">",
                Tok.punct "<", Tok.punct "/", Tok.punct ">"]])) ∧
    parseStmts 20 [Tok.ident "match", Tok.ident "v", Tok.group .brace []] =
      .ok (.cons (.matchS 0 [Tok.ident "v"] 0 .nil) .nil) ∧
    (∀ (mp : Path) (ms : Span) (scrut : Expr) (bs : Span),
        stmt_to_html mp (.matchS ms scrut bs .nil) =
          .ok [Tok.group .brace
            (Tok.ident "match" :: scrut ++ [Tok.group .brace []])]) := by
  refine ⟨rfl, ?_, rfl, ?_⟩
  · intro mp sp
    simp [emit, stmtsToHtml, takeLeadingLets, fragmentToks]
  · intro mp ms scrut bs
    simp [stmt_to_html, armsToHtml]


unseal parseNodeArgList in
/-- C9: argument name segments may be Rust keywords: `NodeArg` names go
through the keyword-permitting `parse_any` (where the ordinary
identifier parser would reject a reserved word), so an argument whose
name is a reserved word parses, and the keyword is emitted verbatim as
the attribute name segment. -/
theorem C9_keyword_argument_names (s : String) (hs : s ∈ rustKeywords) (v : String) :
    parseIdentAny [Tok.ident s] = .ok (s, []) ∧
    parseIdentStrict [Tok.ident s] = .error "expected identifier" ∧
    parseNodeArgList [Tok.ident s, Tok.punct "=", Tok.lit v] =
      .ok [⟨[s], some [Tok.lit v]⟩] ∧
    nodeArgToks ⟨[s], some [Tok.lit v]⟩ =
      [Tok.ident s, Tok.punct "=", Tok.group .brace [Tok.lit v]] ∧
    parseStmts 20 [Tok.ident "input",
        Tok.group .paren [Tok.ident "type", Tok.punct "=", Tok.lit "checkbox"],
        Tok.punct ";"] =
      .ok (.cons (.nodeS ⟨false, [⟨"input", none⟩]⟩
            (.named [⟨["type"], some [Tok.lit "checkbox"]⟩]) (.semi 0)) .nil) := by
  have hc : rustKeywords.contains s = true := List.elem_eq_true_of_mem hs
  refine ⟨rfl, ?_, ?_, rfl, ?_⟩
  · simp [parseIdentStrict]
    exact hs
  · rfl
  · rfl

theorem C9_keyword_argument_names_witness :
    "type" ∈ rustKeywords ∧
    parseNodeArgList [Tok.ident "type", Tok.punct "=", Tok.lit "checkbox"] =
      .ok [⟨["type"], some [Tok.lit "checkbox"]⟩] ∧
    parseIdentStrict [Tok.ident "type"] = .error "expected identifier" := by
  have hmem : "type" ∈ rustKeywords := by decide
  exact ⟨hmem, (C9_keyword_argument_names "type" hmem "checkbox").2.2.1,
         (C9_keyword_argument_names "type" hmem "checkbox").2.1⟩


theorem angleInner_sound :
    ∀ (d : Nat) (ts i rest : List Tok),
      angleInner d ts = some (i, rest) → ts = i ++ Tok.punct ">" :: rest := by
  intro d ts
  induction d, ts using angleInner.induct with
  | case1 x => intro i rest h; simp [angleInner] at h
  | case2 d t r hlt ih =>
      intro i rest h
      simp only [angleInner, hlt, if_true] at h
      obtain ⟨p, hp, he⟩ := Option.map_eq_some'.mp h
      obtain ⟨pi, pr⟩ := p
      cases he
      rw [ih pi pr hp]
      simp
  | case3 t r hnlt hgt =>
      intro i rest h
      have ht := (Tok.isPunctOf_iff _ _).mp hgt
      simp only [angleInner, hnlt, hgt, Bool.false_eq_true, if_false, if_true,
        Option.some.injEq, Prod.mk.injEq] at h
      obtain ⟨h1, h2⟩ := h
      subst h1
      subst h2
      rw [ht]
      simp
  | case4 d t r hnlt hgt hd ih =>
      intro i rest h
      have ht := (Tok.isPunctOf_iff _ _).mp hgt
      simp only [angleInner, hnlt, hgt, Bool.false_eq_true, if_false, if_true,
        hd, if_neg] at h
      obtain ⟨p, hp, he⟩ := Option.map_eq_some'.mp h
      obtain ⟨pi, pr⟩ := p
      cases he
      rw [ih pi pr hp]
      simp
  | case5 d t r hnlt hngt ih =>
      intro i rest h
      simp only [angleInner, hnlt, hngt, Bool.false_eq_true, if_false] at h
      obtain ⟨p, hp, he⟩ := Option.map_eq_some'.mp h
      obtain ⟨pi, pr⟩ := p
      cases he
      rw [ih pi pr hp]
      simp

theorem angleInner_complete :
    ∀ (i : List Tok) (d : Nat) (rest : List Tok), angleOkAux d i = true →
      angleInner d (i ++ Tok.punct ">" :: rest) = some (i, rest) := by
  intro i
  induction i with
  | nil =>
      intro d rest h
      simp only [angleOkAux, beq_iff_eq] at h
      subst h
      simp [angleInner, Tok.isPunctOf]
  | cons t i2 ih =>
      intro d rest h
      simp only [angleOkAux] at h
      by_cases h1 : t.isPunctOf "<"
      · rw [if_pos h1] at h
        simp only [List.cons_append, angleInner, h1, if_true, List.append_eq]
        rw [ih (d + 1) rest h]
        rfl
      · rw [if_neg h1] at h
        by_cases h2 : t.isPunctOf ">"
        · rw [if_pos h2] at h
          by_cases hd : d = 0
          · subst hd
            simp at h
          · have hd2 : (d == 0) = false := by simp [hd]
            rw [hd2] at h
            simp only [Bool.false_eq_true, if_false] at h
            simp only [List.cons_append, angleInner, h1, h2, Bool.false_eq_true,
              if_false, if_true, hd, if_neg, List.append_eq]
            rw [ih (d - 1) rest h]
            rfl
        · rw [if_neg h2] at h
          simp only [List.cons_append, angleInner, h1, h2, Bool.false_eq_true, if_false,
            List.append_eq]
          rw [ih d rest h]
          rfl


theorem parsePathSegments_sound :
    ∀ (fuel : Nat) (ts : List Tok) (segs : List PathSeg) (rest : List Tok),
      parsePathSegments fuel ts = .ok (segs, rest) →
      segs ≠ [] ∧ ts = pathSegsToks segs ++ rest := by
  intro fuel
  induction fuel with
  | zero => intro ts segs rest h; simp [parsePathSegments] at h
  | succ fuel ih =>
      intro ts segs rest h
      cases ts with
      | nil => simp [parsePathSegments] at h
      | cons t0 r1 =>
          cases t0 with
          | punct s => simp [parsePathSegments] at h
          | lit s => simp [parsePathSegments] at h
          | group d g => simp [parsePathSegments] at h
          | ident s =>
              by_cases hk : rustKeywords.contains s
              · have hmem : s ∈ rustKeywords := by simpa using hk
                simp [parsePathSegments, hmem, hk] at h
              · have hmem : s ∉ rustKeywords := by simpa using hk
                cases r1 with
                | nil =>
                    simp only [parsePathSegments, hmem, hk, Bool.false_eq_true, if_false,
                      Except.ok.injEq, Prod.mk.injEq] at h
                    obtain ⟨h1, h2⟩ := h
                    subst h1; subst h2
                    exact ⟨by simp, by simp [pathSegsToks, pathSegToks]⟩
                | cons t r2 =>
                    by_cases hlt : t.isPunctOf "<"
                    · cases hangle : angleInner 0 r2 with
                      | none => simp [parsePathSegments, hmem, hk, hlt, hangle] at h
                      | some p =>
                          obtain ⟨inner, r3⟩ := p
                          have hr2 := angleInner_sound 0 r2 inner r3 hangle
                          have ht := (Tok.isPunctOf_iff _ _).mp hlt
                          cases r3 with
                          | nil =>
                              simp only [parsePathSegments, hmem, hk, hlt, hangle,
                                Bool.false_eq_true, if_false, if_true,
                                Except.ok.injEq, Prod.mk.injEq] at h
                              obtain ⟨h1, h2⟩ := h
                              subst h1; subst h2
                              subst ht
                              rw [hr2]
                              exact ⟨by simp, by simp [pathSegsToks, pathSegToks]⟩
                          | cons t3 r4 =>
                              by_cases hcc : t3.isPunctOf "::"
                              · cases hrec : parsePathSegments fuel r4 with
                                | error e =>
                                    simp [parsePathSegments, hmem, hk, hlt, hangle, hcc, hrec] at h
                                | ok q =>
                                    obtain ⟨segs2, rest2⟩ := q
                                    simp only [parsePathSegments, hmem, hk, hlt, hangle, hcc, hrec,
                                      Bool.false_eq_true, if_false, if_true,
                                      Except.ok.injEq, Prod.mk.injEq] at h
                                    obtain ⟨h1, h2⟩ := h
                                    subst h1; subst h2
                                    obtain ⟨hne, hr4⟩ := ih r4 segs2 rest2 hrec
                                    have ht3 := (Tok.isPunctOf_iff _ _).mp hcc
                                    subst ht; subst ht3
                                    refine ⟨by simp, ?_⟩
                                    cases segs2 with
                                    | nil => exact absurd rfl hne
                                    | cons y ys =>
                                        rw [hr2, hr4]
                                        simp [pathSegsToks, pathSegToks, List.append_assoc]
                              · simp only [parsePathSegments, hmem, hk, hlt, hangle, hcc,
                                  Bool.false_eq_true, if_false, if_true,
                                  Except.ok.injEq, Prod.mk.injEq] at h
                                obtain ⟨h1, h2⟩ := h
                                subst h1; subst h2
                                subst ht
                                rw [hr2]
                                exact ⟨by simp,
                                  by simp [pathSegsToks, pathSegToks, List.append_assoc]⟩
                    · by_cases hcc : t.isPunctOf "::"
                      · cases hrec : parsePathSegments fuel r2 with
                        | error e =>
                            simp [parsePathSegments, hmem, hk, hlt, hcc, hrec] at h
                        | ok q =>
                            obtain ⟨segs2, rest2⟩ := q
                            simp only [parsePathSegments, hmem, hk, hlt, hcc, hrec,
                              Bool.false_eq_true, if_false, if_true,
                              Except.ok.injEq, Prod.mk.injEq] at h
                            obtain ⟨h1, h2⟩ := h
                            subst h1; subst h2
                            obtain ⟨hne, hrr⟩ := ih r2 segs2 rest2 hrec
                            have ht := (Tok.isPunctOf_iff _ _).mp hcc
                            subst ht
                            refine ⟨by simp, ?_⟩
                            cases segs2 with
                            | nil => exact absurd rfl hne
                            | cons y ys =>
                                rw [hrr]
                                simp [pathSegsToks, pathSegToks]
                      · simp only [parsePathSegments, hmem, hk, hlt, hcc,
                          Bool.false_eq_true, if_false,
                          Except.ok.injEq, Prod.mk.injEq] at h
                        obtain ⟨h1, h2⟩ := h
                        subst h1; subst h2
                        exact ⟨by simp, by simp [pathSegsToks, pathSegToks]⟩

theorem pathSegsToks_length_ge :
    ∀ segs : List PathSeg, segs.length ≤ (pathSegsToks segs).length := by
  intro segs
  induction segs with
  | nil => simp [pathSegsToks]
  | cons s ss ih =>
      cases ss with
      | nil => simp [pathSegsToks, pathSegToks]
      | cons s1 ss2 =>
          simp only [pathSegsToks, pathSegToks, List.length_append, List.length_cons]
          simp at ih ⊢
          omega

theorem isPunctOf_punct (s1 s2 : String) :
    Tok.isPunctOf s1 (Tok.punct s2) = (s2 == s1) := rfl

theorem parsePathSegments_complete :
    ∀ (segs : List PathSeg) (fuel : Nat) (rest : List Tok),
      segs ≠ [] → (∀ s ∈ segs, segWf s = true) → pathStopOk rest = true →
      segs.length ≤ fuel →
      parsePathSegments fuel (pathSegsToks segs ++ rest) = .ok (segs, rest) := by
  intro segs
  induction segs with
  | nil => intro fuel rest hne _ _ _; exact absurd rfl hne
  | cons s0 ss ih =>
      intro fuel rest _ hwf hstop hlen
      cases fuel with
      | zero => simp at hlen
      | succ fuel =>
          obtain ⟨sid, sargs⟩ := s0
          have hwf0 := hwf ⟨sid, sargs⟩ (List.mem_cons_self _ _)
          simp only [segWf, Bool.and_eq_true, Bool.not_eq_true'] at hwf0
          obtain ⟨hk, hargs⟩ := hwf0
          have hmem : sid ∉ rustKeywords := by simpa using hk
          have hstop2 : ∀ t r, rest = t :: r →
              Tok.isPunctOf "::" t = false ∧ Tok.isPunctOf "<" t = false := by
            intro t r hr
            rw [hr] at hstop
            simp only [pathStopOk, Bool.and_eq_true, Bool.not_eq_true'] at hstop
            exact hstop
          cases ss with
          | nil =>
              cases sargs with
              | none =>
                  simp only [pathSegsToks, pathSegToks, List.cons_append, List.nil_append]
                  cases rest with
                  | nil => simp [parsePathSegments, hk, hmem, hmem]
                  | cons t r =>
                      obtain ⟨hc1, hc2⟩ := hstop2 t r rfl
                      simp [parsePathSegments, hk, hmem, hc1, hc2]
              | some i =>
                  simp only at hargs
                  simp only [pathSegsToks, pathSegToks, List.cons_append, List.append_assoc,
                    List.nil_append]
                  have hang := angleInner_complete i 0 rest hargs
                  cases rest with
                  | nil =>
                      simp [parsePathSegments, hk, hmem, isPunctOf_punct, hang]
                  | cons t r =>
                      obtain ⟨hc1, hc2⟩ := hstop2 t r rfl
                      simp [parsePathSegments, hk, hmem, isPunctOf_punct, hang, hc1, hc2]
          | cons s1 ss2 =>
              have hrec := ih fuel rest (by simp) (fun s hmem => hwf s (List.mem_cons_of_mem _ hmem))
                hstop (by simp at hlen ⊢; omega)
              cases sargs with
              | none =>
                  simp only [pathSegsToks, pathSegToks, List.cons_append, List.nil_append]
                  simp [parsePathSegments, hk, hmem, isPunctOf_punct, hrec]
              | some i =>
                  simp only at hargs
                  have hang := angleInner_complete i 0
                    (Tok.punct "::" :: (pathSegsToks (s1 :: ss2) ++ rest)) hargs
                  simp only [pathSegsToks, pathSegToks, List.cons_append, List.append_assoc,
                    List.nil_append]
                  simp [parsePathSegments, hk, hmem, isPunctOf_punct, hang, hrec]


theorem pathSegsToks_head (sid : String) (sargs : Option (List Tok)) (ss : List PathSeg) :
    ∃ X, pathSegsToks (⟨sid, sargs⟩ :: ss) = Tok.ident sid :: X := by
  cases ss with
  | nil =>
      cases sargs with
      | none => exact ⟨[], by simp [pathSegsToks, pathSegToks]⟩
      | some i =>
          exact ⟨Tok.punct "<" :: (i ++ [Tok.punct ">"]),
            by simp [pathSegsToks, pathSegToks]⟩
  | cons s1 ss2 =>
      cases sargs with
      | none =>
          exact ⟨Tok.punct "::" :: pathSegsToks (s1 :: ss2),
            by simp [pathSegsToks, pathSegToks]⟩
      | some i =>
          exact ⟨Tok.punct "<" :: (i ++ Tok.punct ">" :: Tok.punct "::" :: pathSegsToks (s1 :: ss2)),
            by simp [pathSegsToks, pathSegToks]⟩

/-- C7: element-reference parsing accepts an optional leading `::`, then
one or more identifier segments each optionally followed by
angle-bracketed generic parameters, joined by `::` (completeness over
every well-formed rendered path); whatever it accepts is exactly the
rendering of the returned path, so it never consumes a parenthesized
group (soundness); and a parenthesized group following the element
reference is parsed as the `Named` argument list. -/
theorem C7_path_parsing :
    (∀ (p : Path) (rest : List Tok), pathWf p = true → pathStopOk rest = true →
        parse_path_without_paren (pathToks p ++ rest) = .ok (p, rest)) ∧
    (∀ (ts : List Tok) (p : Path) (rest : List Tok),
        parse_path_without_paren ts = .ok (p, rest) → ts = pathToks p ++ rest) ∧
    (∀ (inner r : List Tok) (args : List NodeArg),
        parseNodeArgList inner = .ok args →
        parseNodeArgs (Tok.group .paren inner :: r) = .ok (.named args, r)) := by
  refine ⟨?_, ?_, ?_⟩
  · intro p rest hwf hstop
    obtain ⟨lc, segs⟩ := p
    simp only [pathWf, Bool.and_eq_true, List.all_eq_true] at hwf
    obtain ⟨hne, hall⟩ := hwf
    have hne2 : segs ≠ [] := by
      cases segs with
      | nil => simp at hne
      | cons a b => simp
    cases lc with
    | true =>
        simp only [pathToks, if_true, List.cons_append, List.nil_append]
        have hlen : segs.length ≤ (Tok.punct "::" :: (pathSegsToks segs ++ rest)).length := by
          have := pathSegsToks_length_ge segs
          simp
          omega
        have hc := parsePathSegments_complete segs _ rest hne2 hall hstop hlen
        simp only [List.length_cons, List.length_append] at hc
        simp [parse_path_without_paren, isPunctOf_punct, hc]
    | false =>
        simp only [pathToks, Bool.false_eq_true, if_false, List.nil_append]
        cases segs with
        | nil => exact absurd rfl hne2
        | cons s0 ss =>
            obtain ⟨sid, sargs⟩ := s0
            have hlen : (⟨sid, sargs⟩ :: ss : List PathSeg).length ≤
                (pathSegsToks (⟨sid, sargs⟩ :: ss) ++ rest).length := by
              have := pathSegsToks_length_ge (⟨sid, sargs⟩ :: ss)
              simp only [List.length_append]
              omega
            have hc := parsePathSegments_complete (⟨sid, sargs⟩ :: ss) _ rest hne2 hall hstop hlen
            obtain ⟨X, hX⟩ := pathSegsToks_head sid sargs ss
            rw [hX] at hc ⊢
            simp only [List.cons_append] at hc ⊢
            simp only [List.length_cons, List.length_append] at hc
            simp [parse_path_without_paren, Tok.isPunctOf, hc]
  · intro ts p rest h
    cases ts with
    | nil => simp [parse_path_without_paren] at h
    | cons t r =>
        by_cases hcc : t.isPunctOf "::"
        · have ht := (Tok.isPunctOf_iff _ _).mp hcc
          cases hps : parsePathSegments (r.length + 1) r with
          | error e => simp [parse_path_without_paren, hcc, hps] at h
          | ok q =>
              obtain ⟨segs2, rest2⟩ := q
              simp only [parse_path_without_paren, hcc, List.length_cons, hps, if_true,
                Except.ok.injEq, Prod.mk.injEq] at h
              obtain ⟨h1, h2⟩ := h
              subst h1; subst h2
              obtain ⟨hne, hr⟩ := parsePathSegments_sound _ r segs2 rest2 hps
              subst ht
              rw [hr]
              simp [pathToks]
        · cases hps : parsePathSegments (r.length + 1) (t :: r) with
          | error e => simp [parse_path_without_paren, hcc, hps] at h
          | ok q =>
              obtain ⟨segs2, rest2⟩ := q
              simp only [parse_path_without_paren, hcc, List.length_cons, hps,
                Bool.false_eq_true, if_false, Except.ok.injEq, Prod.mk.injEq] at h
              obtain ⟨h1, h2⟩ := h
              subst h1; subst h2
              obtain ⟨hne, hr⟩ := parsePathSegments_sound _ (t :: r) segs2 rest2 hps
              rw [hr]
              simp [pathToks]
  · intro inner r args h
    simp [parseNodeArgs, h]

theorem C7_path_parsing_witness :
    pathWf ⟨false, [⟨"foo", none⟩, ⟨"bar", some [Tok.ident "T"]⟩]⟩ = true ∧
    pathStopOk [Tok.group .paren [Tok.ident "a"]] = true ∧
    parse_path_without_paren
        (pathToks ⟨false, [⟨"foo", none⟩, ⟨"bar", some [Tok.ident "T"]⟩]⟩ ++
         [Tok.group .paren [Tok.ident "a"]]) =
      .ok (⟨false, [⟨"foo", none⟩, ⟨"bar", some [Tok.ident "T"]⟩]⟩,
           [Tok.group .paren [Tok.ident "a"]]) :=
  ⟨rfl, rfl, C7_path_parsing.1 _ _ rfl rfl⟩


/-- Whether an emitter result is a success. -/
def okB {α : Type} : Except EmitError α → Bool
  | .ok _ => true
  | .error _ => false

mutual
theorem emitViolationN (mp : Path) (sp : Span) :
    ∀ ns : Nodes,
      (∀ v, firstViolationN ns = some v → emit mp sp ns = .error ⟨v, letOrderMsg⟩) ∧
      (firstViolationN ns = none → okB (emit mp sp ns) = true)
  | .mk stmts => by
      have hs := emitViolationS mp (takeLeadingLets stmts).2
      constructor
      · intro v hv
        simp only [firstViolationN] at hv
        have he := hs.1 v hv
        simp [emit, he]
      · intro hv
        simp only [firstViolationN] at hv
        have h2 := hs.2 hv
        cases hout : stmtsToHtml mp (takeLeadingLets stmts).2 with
        | error e => rw [hout] at h2; simp [okB] at h2
        | ok out => simp [emit, hout, okB]
termination_by ns => sizeOf ns
decreasing_by
  simp_wf
  have h := sizeOf_takeLeadingLets stmts
  omega

theorem emitViolationS (mp : Path) :
    ∀ ss : Stmts,
      (∀ v, firstViolationS ss = some v → stmtsToHtml mp ss = .error ⟨v, letOrderMsg⟩) ∧
      (firstViolationS ss = none → okB (stmtsToHtml mp ss) = true)
  | .nil => by
      constructor
      · intro v hv; simp [firstViolationS] at hv
      · intro _; simp [stmtsToHtml, okB]
  | .cons s rest => by
      have h1 := emitViolationStmt mp s
      have h2 := emitViolationS mp rest
      constructor
      · intro v hv
        simp only [firstViolationS] at hv
        cases hfs : firstViolationStmt s with
        | some w =>
            rw [hfs] at hv
            simp at hv
            subst hv
            simp [stmtsToHtml, h1.1 _ hfs]
        | none =>
            rw [hfs] at hv
            simp at hv
            have hok := h1.2 hfs
            cases hts : stmt_to_html mp s with
            | error e => rw [hts] at hok; simp [okB] at hok
            | ok t => simp [stmtsToHtml, hts, h2.1 v hv]
      · intro hv
        simp only [firstViolationS] at hv
        cases hfs : firstViolationStmt s with
        | some w => rw [hfs] at hv; simp at hv
        | none =>
            rw [hfs] at hv
            simp at hv
            have hok1 := h1.2 hfs
            have hok2 := h2.2 hv
            cases hts : stmt_to_html mp s with
            | error e => rw [hts] at hok1; simp [okB] at hok1
            | ok t =>
                cases hrs : stmtsToHtml mp rest with
                | error e => rw [hrs] at hok2; simp [okB] at hok2
                | ok outs => simp [stmtsToHtml, hts, hrs, okB]
termination_by ss => sizeOf ss
decreasing_by all_goals simp_wf <;> omega

theorem emitViolationStmt (mp : Path) :
    ∀ s : Stmt,
      (∀ v, firstViolationStmt s = some v → stmt_to_html mp s = .error ⟨v, letOrderMsg⟩) ∧
      (firstViolationStmt s = none → okB (stmt_to_html mp s) = true)
  | .ifS a cond br body (.someElse es ebs ebody) => by
      have hb := emitViolationN mp br body
      have he := emitViolationN mp ebs ebody
      constructor
      · intro v hv
        simp only [firstViolationStmt, firstViolationElse] at hv
        cases hfb : firstViolationN body with
        | some w =>
            rw [hfb] at hv
            simp at hv
            subst hv
            simp [stmt_to_html, hb.1 _ hfb]
        | none =>
            rw [hfb] at hv
            simp at hv
            have hok := hb.2 hfb
            cases hbe : emit mp br body with
            | error e => rw [hbe] at hok; simp [okB] at hok
            | ok bout => simp [stmt_to_html, hbe, he.1 v hv]
      · intro hv
        simp only [firstViolationStmt, firstViolationElse] at hv
        cases hfb : firstViolationN body with
        | some w => rw [hfb] at hv; simp at hv
        | none =>
            rw [hfb] at hv
            simp at hv
            have hok1 := hb.2 hfb
            have hok2 := he.2 hv
            cases hbe : emit mp br body with
            | error e => rw [hbe] at hok1; simp [okB] at hok1
            | ok bout =>
                cases hee : emit mp ebs ebody with
                | error e => rw [hee] at hok2; simp [okB] at hok2
                | ok eout => simp [stmt_to_html, hbe, hee, okB]
  | .ifS a cond br body .noElse => by
      have hb := emitViolationN mp br body
      constructor
      · intro v hv
        simp only [firstViolationStmt, firstViolationElse] at hv
        cases hfb : firstViolationN body with
        | some w =>
            rw [hfb] at hv
            simp at hv
            subst hv
            simp [stmt_to_html, hb.1 _ hfb]
        | none => rw [hfb] at hv; simp at hv
      · intro hv
        simp only [firstViolationStmt, firstViolationElse] at hv
        cases hfb : firstViolationN body with
        | some w => rw [hfb] at hv; simp at hv
        | none =>
            have hok := hb.2 hfb
            cases hbe : emit mp br body with
            | error e => rw [hbe] at hok; simp [okB] at hok
            | ok bout => simp [stmt_to_html, hbe, okB]
  | .matchS a scrut br arms => by
      have ha := emitViolationArms mp arms
      constructor
      · intro v hv
        simp only [firstViolationStmt] at hv
        simp [stmt_to_html, ha.1 v hv]
      · intro hv
        simp only [firstViolationStmt] at hv
        have hok := ha.2 hv
        cases hae : armsToHtml mp arms with
        | error e => rw [hae] at hok; simp [okB] at hok
        | ok aout => simp [stmt_to_html, hae, okB]
  | .forS a pat b iter br body => by
      have hb := emitViolationN mp br body
      constructor
      · intro v hv
        simp only [firstViolationStmt] at hv
        simp [stmt_to_html, hb.1 v hv]
      · intro hv
        simp only [firstViolationStmt] at hv
        have hok := hb.2 hv
        cases hbe : emit mp br body with
        | error e => rw [hbe] at hok; simp [okB] at hok
        | ok bout => simp [stmt_to_html, hbe, okB]
  | .letS l => by
      constructor
      · intro v hv
        simp only [firstViolationStmt, Option.some.injEq] at hv
        subst hv
        simp [stmt_to_html]
      · intro hv; simp [firstViolationStmt] at hv
  | .textS a e => by
      constructor
      · intro v hv; simp [firstViolationStmt] at hv
      · intro _; simp [stmt_to_html, okB]
  | .nodeS el args (.semi sp2) => by
      constructor
      · intro v hv; simp [firstViolationStmt, firstViolationBody] at hv
      · intro _
        simp [stmt_to_html, args_to_html_eq, okB]
  | .nodeS el args (.braced bs children) => by
      have hb := emitViolationN mp bs children
      constructor
      · intro v hv
        simp only [firstViolationStmt, firstViolationBody] at hv
        simp [stmt_to_html, args_to_html_eq, hb.1 v hv]
      · intro hv
        simp only [firstViolationStmt, firstViolationBody] at hv
        have hok := hb.2 hv
        cases hbe : emit mp bs children with
        | error e => rw [hbe] at hok; simp [okB] at hok
        | ok bout => simp [stmt_to_html, args_to_html_eq, hbe, okB]
termination_by s => sizeOf s
decreasing_by all_goals simp_wf <;> omega

theorem emitViolationArms (mp : Path) :
    ∀ arms : Arms,
      (∀ v, firstViolationArms arms = some v → armsToHtml mp arms = .error ⟨v, letOrderMsg⟩) ∧
      (firstViolationArms arms = none → okB (armsToHtml mp arms) = true)
  | .nil => by
      constructor
      · intro v hv; simp [firstViolationArms] at hv
      · intro _; simp [armsToHtml, okB]
  | .cons (.mk pat guard bs body) rest => by
      have hb := emitViolationN mp bs body
      have hr := emitViolationArms mp rest
      constructor
      · intro v hv
        simp only [firstViolationArms] at hv
        cases hfb : firstViolationN body with
        | some w =>
            rw [hfb] at hv
            simp at hv
            subst hv
            simp [armsToHtml, hb.1 _ hfb]
        | none =>
            rw [hfb] at hv
            simp at hv
            have hok := hb.2 hfb
            cases hbe : emit mp bs body with
            | error e => rw [hbe] at hok; simp [okB] at hok
            | ok bout => simp [armsToHtml, hbe, hr.1 v hv]
      · intro hv
        simp only [firstViolationArms] at hv
        cases hfb : firstViolationN body with
        | some w => rw [hfb] at hv; simp at hv
        | none =>
            rw [hfb] at hv
            simp at hv
            have hok1 := hb.2 hfb
            have hok2 := hr.2 hv
            cases hbe : emit mp bs body with
            | error e => rw [hbe] at hok1; simp [okB] at hok1
            | ok bout =>
                cases hre : armsToHtml mp rest with
                | error e => rw [hre] at hok2; simp [okB] at hok2
                | ok rout => simp [armsToHtml, hbe, hre, okB]
termination_by arms => sizeOf arms
decreasing_by all_goals simp_wf <;> omega
end

theorem skipToSemi_through :
    ∀ (pre post : List Tok), noSemi pre = true →
      skipToSemi (pre ++ Tok.punct ";" :: post) = some post := by
  intro pre
  induction pre with
  | nil => intro post _; simp [skipToSemi, Tok.isPunctOf]
  | cons t r ih =>
      intro post hpre
      simp only [noSemi, List.all_cons, Bool.and_eq_true, Bool.not_eq_true'] at hpre
      simp only [List.cons_append, skipToSemi, hpre.1, Bool.false_eq_true, if_false]
      exact ih post hpre.2

theorem countLeadingBindings_app :
    ∀ (lets : List LetStmt) (suffix : List Tok),
      (∀ l ∈ lets, noSemi l.pat = true ∧ noSemi l.expr = true) →
      headNotLet suffix = true →
      countLeadingBindings ((lets.map letLocalToks).flatten ++ suffix) = lets.length := by
  intro lets
  induction lets with
  | nil =>
      intro suffix _ hsuf
      simp only [List.map_nil, List.flatten_nil, List.nil_append]
      cases suffix with
      | nil => simp [countLeadingBindings]
      | cons t r =>
          simp only [headNotLet, Bool.not_eq_true'] at hsuf
          simp [countLeadingBindings, hsuf]
  | cons l ls ih =>
      intro suffix hlets hsuf
      have hl := hlets l (List.mem_cons_self _ _)
      have hpre : noSemi (l.pat ++ Tok.punct "=" :: l.expr) = true := by
        have h1 := hl.1
        have h2 := hl.2
        simp only [noSemi, List.all_append, List.all_cons, Bool.and_eq_true] at h1 h2 ⊢
        exact ⟨h1, by simp [Tok.isPunctOf], h2⟩
      have hskip := skipToSemi_through (l.pat ++ Tok.punct "=" :: l.expr)
        ((ls.map letLocalToks).flatten ++ suffix) hpre
      have hrest := ih suffix (fun x hm => hlets x (List.mem_cons_of_mem _ hm)) hsuf
      simp only [List.map_cons, List.flatten_cons, letLocalToks, List.cons_append,
        List.append_assoc, List.singleton_append] at hskip ⊢
      simp only [countLeadingBindings, Tok.isIdentOf, beq_self_eq_true, if_true]
      split
      · rename_i r2 hsk
        simp only [List.nil_append] at hsk
        rw [hskip] at hsk
        injection hsk with hsk2
        subst hsk2
        rw [hrest]
        simp
      · rename_i hsk
        simp only [List.nil_append] at hsk
        rw [hskip] at hsk
        cases hsk

theorem hasLetS_iff :
    ∀ ss : Stmts, hasLetS ss = true ↔ ∃ l ∈ stmtsToList ss, isLetStmt l = true
  | .nil => by simp [hasLetS, stmtsToList]
  | .cons s r => by
      have ih := hasLetS_iff r
      simp [hasLetS, stmtsToList, ih, Bool.or_eq_true]

theorem nonletHead_iff (s0 : Stmt) (rest : Stmts) (h0 : isLetStmt s0 = false) :
    hasLetS (Stmts.cons s0 rest) = true ↔
      ∃ pre s post, stmtsToList (Stmts.cons s0 rest) = pre ++ s :: post ∧
        isLetStmt s = false ∧ ∃ l ∈ post, isLetStmt l = true := by
  simp only [hasLetS, h0, Bool.false_or]
  rw [hasLetS_iff]
  constructor
  · rintro ⟨l, hmem, hl⟩
    exact ⟨[], s0, stmtsToList rest, by simp [stmtsToList], h0, l, hmem, hl⟩
  · rintro ⟨pre, s, post, heq, hs, l, hmem, hl⟩
    cases pre with
    | nil =>
        simp only [stmtsToList, List.nil_append, List.cons.injEq] at heq
        obtain ⟨h1, h2⟩ := heq
        rw [h2]
        exact ⟨l, hmem, hl⟩
    | cons x pre2 =>
        simp only [stmtsToList, List.cons_append, List.cons.injEq] at heq
        obtain ⟨h1, h2⟩ := heq
        rw [h2]
        exact ⟨l, List.mem_append_right _ (List.mem_cons_of_mem _ hmem), hl⟩

theorem stripHasLet_iff :
    ∀ ss : Stmts, hasLetS (takeLeadingLets ss).2 = true ↔
      ∃ pre s post, stmtsToList ss = pre ++ s :: post ∧ isLetStmt s = false ∧
        ∃ l ∈ post, isLetStmt l = true
  | .nil => by
      simp [takeLeadingLets, hasLetS, stmtsToList]
  | .cons (.letS l) rest => by
      have ih := stripHasLet_iff rest
      simp only [takeLeadingLets]
      rw [ih]
      constructor
      · rintro ⟨pre, s, post, heq, hs, hl⟩
        exact ⟨Stmt.letS l :: pre, s, post, by simp [stmtsToList, heq], hs, hl⟩
      · rintro ⟨pre, s, post, heq, hs, hl⟩
        cases pre with
        | nil =>
            simp only [stmtsToList, List.nil_append, List.cons.injEq] at heq
            obtain ⟨h1, h2⟩ := heq
            rw [←h1] at hs
            simp [isLetStmt] at hs
        | cons x pre2 =>
            simp only [stmtsToList, List.cons_append, List.cons.injEq] at heq
            obtain ⟨h1, h2⟩ := heq
            exact ⟨pre2, s, post, h2, hs, hl⟩
  | .cons (.ifS a b c d e) rest => by
      have h := nonletHead_iff (.ifS a b c d e) rest rfl
      simpa [takeLeadingLets] using h
  | .cons (.matchS a b c d) rest => by
      have h := nonletHead_iff (.matchS a b c d) rest rfl
      simpa [takeLeadingLets] using h
  | .cons (.forS a b c d e f) rest => by
      have h := nonletHead_iff (.forS a b c d e f) rest rfl
      simpa [takeLeadingLets] using h
  | .cons (.textS a b) rest => by
      have h := nonletHead_iff (.textS a b) rest rfl
      simpa [takeLeadingLets] using h
  | .cons (.nodeS a b c) rest => by
      have h := nonletHead_iff (.nodeS a b c) rest rfl
      simpa [takeLeadingLets] using h

theorem headNotLet_fragment (mp : Path) (children : List (List Tok))
    (hmp : pathWf mp = true) : headNotLet (fragmentToks mp children) = true := by
  obtain ⟨lc, segs⟩ := mp
  simp only [pathWf, Bool.and_eq_true, List.all_eq_true] at hmp
  obtain ⟨hne, hall⟩ := hmp
  cases lc with
  | true => simp [fragmentToks, pathToks, headNotLet, Tok.isIdentOf]
  | false =>
      cases segs with
      | nil => simp at hne
      | cons s0 ss =>
          obtain ⟨sid, sargs⟩ := s0
          have hwf0 := hall ⟨sid, sargs⟩ (List.mem_cons_self _ _)
          simp only [segWf, Bool.and_eq_true, Bool.not_eq_true'] at hwf0
          have hsid : sid ≠ "let" := by
            intro he
            subst he
            simp [rustKeywords] at hwf0
          obtain ⟨X, hX⟩ := pathSegsToks_head sid sargs ss
          simp [fragmentToks, pathToks, hX, headNotLet, Tok.isIdentOf, hsid]


/-- C2: emitting a block re-emits exactly its leading contiguous run of
`let` statements as plain bindings before the fragment call — the count
of leading bindings in the output equals the count of leading contiguous
`let`s (under the structural side conditions that the entry-point path
is well-formed and that the captured `let` fragments hold no top-level
`;`, both guaranteed for parser-produced input); emitting fails exactly
when a violation is reachable, the per-block violation condition being
"a `let` occurs after a non-`let` statement"; and the only error ever
produced is the ordering-violation diagnostic positioned at the first
such `let`. -/
theorem C2_let_ordering (mp : Path) (sp : Span) (ns : Nodes)
    (hmp : pathWf mp = true)
    (hlets : ∀ l ∈ (takeLeadingLets (nodesStmts ns)).1,
        noSemi l.pat = true ∧ noSemi l.expr = true) :
    (∀ out, emit mp sp ns = .ok out →
        (∃ children,
            out = ((takeLeadingLets (nodesStmts ns)).1.map letLocalToks).flatten ++
              fragmentToks mp children) ∧
        countLeadingBindings out = (takeLeadingLets (nodesStmts ns)).1.length) ∧
    (okB (emit mp sp ns) = true ↔ firstViolationN ns = none) ∧
    (∀ e, emit mp sp ns = .error e → firstViolationN ns = some e.span ∧ e.msg = letOrderMsg) ∧
    (∀ ss : Stmts, hasLetS (takeLeadingLets ss).2 = true ↔
        ∃ pre s post, stmtsToList ss = pre ++ s :: post ∧ isLetStmt s = false ∧
          ∃ l ∈ post, isLetStmt l = true) := by
  have hviol := emitViolationN mp sp ns
  refine ⟨?_, ?_, ?_, stripHasLet_iff⟩
  · intro out hout
    cases ns with
    | mk stmts =>
        simp only [nodesStmts] at hlets ⊢
        cases hst : stmtsToHtml mp (takeLeadingLets stmts).2 with
        | error e => simp [emit, hst] at hout
        | ok children =>
            simp only [emit, hst, Except.ok.injEq] at hout
            subst hout
            constructor
            · exact ⟨children, rfl⟩
            · exact countLeadingBindings_app (takeLeadingLets stmts).1
                (fragmentToks mp children) hlets
                (headNotLet_fragment mp children hmp)
  · constructor
    · intro hok
      cases hfv : firstViolationN ns with
      | none => rfl
      | some v =>
          have he := hviol.1 v hfv
          rw [he] at hok
          simp [okB] at hok
    · intro hfv
      exact hviol.2 hfv
  · intro e he
    cases hfv : firstViolationN ns with
    | none =>
        have hok := hviol.2 hfv
        rw [he] at hok
        simp [okB] at hok
    | some v =>
        have herr := hviol.1 v hfv
        rw [he] at herr
        injection herr with h2
        subst h2
        exact ⟨rfl, rfl⟩

set_option maxRecDepth 8000 in
unseal emit stmtsToHtml stmt_to_html armsToHtml firstViolationN firstViolationS
  firstViolationStmt firstViolationElse firstViolationBody firstViolationArms
  countLeadingBindings in
theorem C2_let_ordering_witness :
    firstViolationN (Nodes.mk (.cons (.textS 7 [Tok.ident "x"])
        (.cons (.letS ⟨42, [Tok.ident "y"], 0, [Tok.ident "z"], 0⟩) .nil))) = some 42 ∧
    countLeadingBindings
        (letLocalToks ⟨1, [Tok.ident "y"], 2, [Tok.ident "z"], 3⟩ ++
         fragmentToks defaultConfig.macro_path [[Tok.group .brace [Tok.ident "x"]]]) = 1 := by
  constructor
  · exact (C2_let_ordering defaultConfig.macro_path 0
      (Nodes.mk (.cons (.textS 7 [Tok.ident "x"])
        (.cons (.letS ⟨42, [Tok.ident "y"], 0, [Tok.ident "z"], 0⟩) .nil)))
      rfl (by intro l hl; simp [nodesStmts, takeLeadingLets] at hl)).2.2.1
      ⟨42, letOrderMsg⟩ rfl |>.1
  · have h := (C2_let_ordering defaultConfig.macro_path 0
      (Nodes.mk (.cons (.letS ⟨1, [Tok.ident "y"], 2, [Tok.ident "z"], 3⟩)
        (.cons (.textS 0 [Tok.ident "x"]) .nil)))
      rfl (by
        intro l hl
        simp [nodesStmts, takeLeadingLets] at hl
        subst hl
        exact ⟨rfl, rfl⟩)).1
      (letLocalToks ⟨1, [Tok.ident "y"], 2, [Tok.ident "z"], 3⟩ ++
       fragmentToks defaultConfig.macro_path [[Tok.group .brace [Tok.ident "x"]]]) rfl
    exact h.2

end Defy
